import Mathlib

/-!
Verification of the edit-applying engine `tools/clang/scripts/apply_edits.py`.

The program is embedded shallowly: file contents are `List Nat` (byte values),
Python `int` is `Int`, Python slice assignment / deletion on a `bytearray` is
modelled with explicit index clamping (`pyIndex`, `pySplice`), and the per-file
edit pass (`_ApplyEditsToSingleFile`) is a fold over the sorted-then-reversed
edit list.  Python's `list.sort()` on namedtuples orders them lexicographically
by field declaration order `(edit_type, offset, length, replacement)`; since
that order is total and antisymmetric and equal tuples are identical values,
the sorted list is unique, so it is modelled by insertion sort under the same
total order.
-/

/-- Model of the `Edit` namedtuple: `('edit_type', 'offset', 'length', 'replacement')`.
Byte strings are lists of byte values; Python ints are `Int`. -/
structure Edit where
  edit_type : List Nat
  offset : Int
  length : Int
  replacement : List Nat
deriving DecidableEq

/-- Bytes of a string literal (each character's code point), for writing
concrete buffers readably. -/
def strBytes (s : String) : List Nat := s.toList.map Char.toNat

/-- Strict lexicographic comparison of byte strings, as Python compares `str`. -/
def bytesLt : List Nat → List Nat → Bool
  | [], [] => false
  | [], _ :: _ => true
  | _ :: _, [] => false
  | a :: as_, b :: bs => if a < b then true else if a = b then bytesLt as_ bs else false

/-- Non-strict lexicographic comparison of byte strings. -/
def bytesLe (a b : List Nat) : Bool := bytesLt a b || a == b

/-- Python's ordering of `Edit` namedtuples: lexicographic by
`(edit_type, offset, length, replacement)` — the field declaration order. -/
def editLe (a b : Edit) : Bool :=
  if a.edit_type = b.edit_type then
    if a.offset = b.offset then
      if a.length = b.length then bytesLe a.replacement b.replacement
      else decide (a.length < b.length)
    else decide (a.offset < b.offset)
  else bytesLt a.edit_type b.edit_type

/-- The tuple order as a relation, for use with `List.insertionSort`. -/
def editR (a b : Edit) : Prop := editLe a b = true

instance : DecidableRel editR := fun a b => instDecidableEqBool (editLe a b) true

/-- Model of `edits.sort()`: the unique ascending ordering of the edit list
under the namedtuple order (Python's sort is stable, and elements equivalent
under this total order are identical tuples, so the result is unique). -/
def sortEdits (l : List Edit) : List Edit := l.insertionSort editR

/-- The order in which `_ApplyEditsToSingleFile` visits edit records:
`reversed(edits)` after the in-place ascending sort. -/
def visitOrder (l : List Edit) : List Edit := (sortEdits l).reverse

/-- Clamp a Python slice index to a bytearray of size `n`
(negative indices count from the end, then the result is clamped to `[0, n]`). -/
def pyIndex (n : Nat) (i : Int) : Nat :=
  if i < 0 then ((n : Int) + i).toNat else min i.toNat n

/-- Python slice assignment `buf[a:b] = r` on a bytearray (step 1): replaces
the clamped range with `r`; when the clamped stop is below the clamped start
the assignment inserts at the start position. -/
def pySplice (buf : List Nat) (a b : Int) (r : List Nat) : List Nat :=
  let i := pyIndex buf.length a
  let j := max i (pyIndex buf.length b)
  buf.take i ++ r ++ buf.drop j

/-- Whitespace bytes from `_WHITESPACE_BYTES`: tab, newline, carriage return, space. -/
def isWsByte (b : Nat) : Bool := b == 9 || b == 10 || b == 13 || b == 32

/-- Backward scan of `_ExtendDeletionIfElementIsInList`, run on
`reversed(contents[:offset])`: counts every byte visited (whitespace skipped
plus the terminating byte) and reports the first non-whitespace byte when it
is one of `,` `:` `(` `{`. -/
def scanSepBefore : List Nat → Option Nat × Nat
  | [] => (none, 0)
  | b :: rest =>
    if isWsByte b then
      let r := scanSepBefore rest
      (r.1, r.2 + 1)
    else ((if b = 44 ∨ b = 58 ∨ b = 40 ∨ b = 123 then some b else none), 1)

/-- Forward scan of `_ExtendDeletionIfElementIsInList`, run on
`contents[offset:]`: counts bytes visited and reports the first
non-whitespace byte when it is a comma. -/
def scanCommaAfter : List Nat → Option Nat × Nat
  | [] => (none, 0)
  | b :: rest =>
    if isWsByte b then
      let r := scanCommaAfter rest
      (r.1, r.2 + 1)
    else ((if b = 44 then some b else none), 1)

/-- Model of `_ExtendDeletionIfElementIsInList(contents, offset)`: after a pure
deletion at `offset`, either the forward-scanned whitespace-plus-comma range
`[offset, offset+right_trim_count)` is deleted (when separators are found on
both sides), or the backward-scanned range `[offset-left_trim_count, offset)`
(when only a `,` or `:` precedes), or nothing. -/
def extendDeletion (contents : List Nat) (offset : Int) : List Nat :=
  let i := pyIndex contents.length offset
  let lb := scanSepBefore (contents.take i).reverse
  let rb := scanCommaAfter (contents.drop i)
  match lb.1 with
  | some cb =>
    if rb.1.isSome then pySplice contents offset (offset + (rb.2 : Int)) []
    else if cb = 44 ∨ cb = 58 then pySplice contents (offset - (lb.2 : Int)) offset []
    else contents
  | none => contents

/-- The buffer mutation one applied edit performs:
`contents[offset:offset+length] = replacement`, followed by the
deletion-extension heuristic when the replacement is empty. -/
def applyContents (buf : List Nat) (e : Edit) : List Nat :=
  let c := pySplice buf e.offset (e.offset + e.length) e.replacement
  if e.replacement = [] then extendDeletion c e.offset else c

/-- Loop state of `_ApplyEditsToSingleFile`: the mutable buffer, `last_edit`,
`edit_count` and `error_count`. -/
structure PassState where
  contents : List Nat
  lastEdit : Option Edit
  editCount : Nat
  errorCount : Nat
deriving DecidableEq

/-- One iteration of the `for edit in reversed(edits)` loop: skip exact
duplicates of `last_edit`; count (and skip) records agreeing with `last_edit`
on `edit_type`, `offset` and `length` but not `replacement` as conflicts;
otherwise splice the buffer and update `last_edit`. -/
def editStep (st : PassState) (e : Edit) : PassState :=
  match st.lastEdit with
  | some p =>
    if e = p then st
    else if e.edit_type = p.edit_type ∧ e.offset = p.offset ∧ e.length = p.length then
      { st with errorCount := st.errorCount + 1 }
    else
      { contents := applyContents st.contents e, lastEdit := some e,
        editCount := st.editCount + 1, errorCount := st.errorCount }
  | none =>
      { contents := applyContents st.contents e, lastEdit := some e,
        editCount := st.editCount + 1, errorCount := st.errorCount }

/-- Model of `_ApplyEditsToSingleFile`: sort the records ascending, visit them
in reverse, and return the final buffer (the bytes written back to the file)
together with `(edit_count, error_count)`. -/
def applyEditsToSingleFile (contents : List Nat) (edits : List Edit) :
    List Nat × Nat × Nat :=
  let st := (visitOrder edits).foldl editStep ⟨contents, none, 0, 0⟩
  (st.contents, st.editCount, st.errorCount)

/-- Accumulator loop of `_ApplyEdits`: apply each file's edits, sum the edit
and error counts, and finally return `-error_count`. -/
def applyEditsGo (fc : String → List Nat) :
    List (String × List Edit) → Nat → Nat → Int
  | [], _, errc => -(errc : Int)
  | b :: rest, ec, errc =>
    let r := applyEditsToSingleFile (fc b.1) b.2
    applyEditsGo fc rest (ec + r.2.1) (errc + r.2.2)

/-- Model of `_ApplyEdits`: the batch driver over a mapping from filenames to
edit collections (the dictionary iteration is modelled as a list of pairs with
distinct keys; the returned value does not depend on the file mutations). -/
def applyEdits (fc : String → List Nat) (batches : List (String × List Edit)) : Int :=
  applyEditsGo fc batches 0 0

/-- Filesystem interface seen by `_ResolvePath`: `os.path.isfile` and
`os.path.realpath`, abstracted as oracle functions over path strings
(paths are lists of characters). -/
structure FS where
  isfile : List Char → Bool
  realpath : List Char → List Char

/-- Model of `os.path.join(a, b)` on POSIX: an absolute `b` discards `a`;
otherwise the parts are joined with a single slash. -/
def osJoin (a b : List Char) : List Char :=
  if b.head? = some '/' then b
  else if a = [] then b
  else if a.getLast? = some '/' then a ++ b
  else a ++ '/' :: b

/-- Cache-free core of `_ResolvePath`: an existing raw path is kept as is,
otherwise it is resolved as `realpath(join(build_directory, path))`; if the
chosen candidate is not a file the resolution fails (`None`). -/
def resolveDirect (fs : FS) (bd p : List Char) : Option (List Char) :=
  let rp := if fs.isfile p then p else fs.realpath (osJoin bd p)
  if fs.isfile rp then some rp else none

/-- Lookup in the `path_to_resolved_path` memoization dictionary, modelled as
an association list. -/
def lookupA : List (List Char × Option (List Char)) → List Char →
    Option (Option (List Char))
  | [], _ => none
  | e :: rest, p => if e.1 = p then some e.2 else lookupA rest p

/-- Model of `_ResolvePath` with its per-run memoization dictionary: a cached
answer is returned unchanged, otherwise the resolution is computed once and
recorded. -/
def resolveWithCache (fs : FS) (bd : List Char)
    (cache : List (List Char × Option (List Char))) (p : List Char) :
    Option (List Char) × List (List Char × Option (List Char)) :=
  match lookupA cache p with
  | some r => (r, cache)
  | none =>
    let r := resolveDirect fs bd p
    (r, (p, r) :: cache)

/-- First occurrence of the separator in a character list: returns the part
before it and the part after it. -/
def findSep (sep : List Char) : List Char → Option (List Char × List Char)
  | [] => none
  | c :: rest =>
    if sep.isPrefixOf (c :: rest) then some ([], (c :: rest).drop sep.length)
    else
      match findSep sep rest with
      | some (pre, post) => some (c :: pre, post)
      | none => none

/-- Model of Python's `line.split(sep, maxsplit)` for a non-empty separator:
split at the leftmost occurrences, at most `maxsplit` times. -/
def splitMax (sep : List Char) : Nat → List Char → List (List Char)
  | 0, s => [s]
  | m + 1, s =>
    match findSep sep s with
    | none => [s]
    | some (pre, post) => pre :: splitMax sep m post

/-- Model of `line.rstrip("\n\r")`. -/
def rstripNlCr (l : List Char) : List Char :=
  (l.reverse.dropWhile (fun c => c = '\n' ∨ c = '\r')).reverse

/-- Digits of a decimal numeral; fails on the empty list or any non-digit. -/
def digitsToNat : List Char → Option Nat
  | [] => none
  | [c] => if c.isDigit then some (c.toNat - 48) else none
  | c :: rest =>
    if c.isDigit then (digitsToNat rest).map (fun n => (c.toNat - 48) * 10 ^ rest.length + n)
    else none

/-- Whitespace stripped by Python's `int(str)` conversion. -/
def isPySpace (c : Char) : Bool :=
  c = ' ' || c = '\t' || c = '\n' || c = '\r' || c = Char.ofNat 11 || c = Char.ofNat 12

/-- Model of Python 2's `int(string)`: optional surrounding whitespace, an
optional single sign, then at least one decimal digit.  Note that negative
numerals are accepted. -/
def parsePyInt (s : List Char) : Option Int :=
  let t := ((s.dropWhile isPySpace).reverse.dropWhile isPySpace).reverse
  match t with
  | '-' :: ds => (digitsToNat ds).map (fun n => -(n : Int))
  | '+' :: ds => (digitsToNat ds).map (fun n => (n : Int))
  | ds => (digitsToNat ds).map (fun n => (n : Int))

/-- The five fields of an edit line: `line.rstrip("\n\r").split(':::', 4)`
must produce exactly five parts `(edit_type, path, offset, length, replacement)`. -/
def parseFields (line : List Char) :
    Option (List Char × List Char × List Char × List Char × List Char) :=
  match splitMax [':', ':', ':'] 4 (rstripNlCr line) with
  | [t, p, o, l, r] => some (t, p, o, l, r)
  | _ => none

/-- Decoding of the replacement field: `replacement.replace('\0', '\n')`. -/
def decodeReplacement (r : List Char) : List Char :=
  r.map (fun c => if c = Char.ofNat 0 then Char.ofNat 10 else c)

/-- One iteration of the `for line in sys.stdin` loop of
`_ParseEditsFromStdin`: unpack the five fields (a failure skips the line),
decode the replacement, resolve the path (updating the memoization dictionary;
an unresolved or empty path skips the line), then convert the numeric fields
(a failure skips the line, after the resolution side effect, matching the
statement order inside the `try` block); a surviving line appends one record. -/
def parseLineStep (fs : FS) (bd : List Char)
    (st : List (List Char × Option (List Char)) × List (List Char × Edit))
    (line : List Char) :
    List (List Char × Option (List Char)) × List (List Char × Edit) :=
  match parseFields line with
  | none => st
  | some (t, p, o, l, r) =>
    let rep := decodeReplacement r
    let rc := resolveWithCache fs bd st.1 p
    match rc.1 with
    | none => (rc.2, st.2)
    | some rp =>
      if rp = [] then (rc.2, st.2)
      else
        match parsePyInt o, parsePyInt l with
        | some oi, some li =>
          (rc.2, st.2 ++ [(rp, ⟨t.map Char.toNat, oi, li, rep.map Char.toNat⟩)])
        | _, _ => (rc.2, st.2)

/-- Model of `_ParseEditsFromStdin`: fold the per-line step over the input
lines, starting from an empty memoization dictionary, and return the emitted
`(resolved path, edit record)` pairs in order (the Python code groups them
into a dictionary keyed by resolved path; the grouping preserves exactly this
multiset of pairs). -/
def parseEditsFromStdin (fs : FS) (bd : List Char) (lines : List (List Char)) :
    List (List Char × Edit) :=
  (lines.foldl (parseLineStep fs bd) ([], [])).2

/-- A malformed line in the sense of the Edit Stream Parser: it does not split
into five fields, or its offset or length field is not a parseable integer. -/
def malformedLine (line : List Char) : Prop :=
  match parseFields line with
  | none => True
  | some (_, _, o, l, _) => parsePyInt o = none ∨ parsePyInt l = none

instance (line : List Char) : Decidable (malformedLine line) := by
  unfold malformedLine
  match parseFields line with
  | none => exact inferInstanceAs (Decidable True)
  | some (t, p, o, l, r) => exact inferInstanceAs (Decidable (_ ∨ _))

/-- Modelled from the spec: the reference semantics of "applying edits one at
a time with offsets recomputed after each application" — after an edit `a` is
applied, every pending edit at a strictly higher offset is shifted by the
length difference `|a.replacement| - a.length`. -/
def shiftAfter (a z : Edit) : Edit :=
  if a.offset < z.offset then
    { z with offset := z.offset + ((a.replacement.length : Int) - a.length) }
  else z

/-- Modelled from the spec: worker for `applySeqRecomputed` that carries the
accumulated offset recomputation `σ` applied to every still-pending edit. -/
def applySeqGo (σ : Edit → Edit) : List Edit → List Nat → List Nat
  | [], buf => buf
  | e :: es, buf =>
    applySeqGo (fun z => shiftAfter (σ e) (σ z)) es (applyContents buf (σ e))

/-- Modelled from the spec: apply the edits one at a time in the given order,
recomputing the offsets of the remaining edits after each application. -/
def applySeqRecomputed (l : List Edit) (buf : List Nat) : List Nat :=
  applySeqGo id l buf

/-! ### Properties of the namedtuple order -/

theorem bytesLt_irrefl : ∀ a : List Nat, bytesLt a a = false := by
  intro a
  induction a with
  | nil => rfl
  | cons x xs ih => simp [bytesLt, ih]

theorem bytesLt_trans : ∀ {a b c : List Nat},
    bytesLt a b = true → bytesLt b c = true → bytesLt a c = true := by
  intro a
  induction a with
  | nil =>
    intro b c hab hbc
    cases b with
    | nil => simp [bytesLt] at hab
    | cons y ys =>
      cases c with
      | nil => simp [bytesLt] at hbc
      | cons z zs => rfl
  | cons x xs ih =>
    intro b c hab hbc
    cases b with
    | nil => simp [bytesLt] at hab
    | cons y ys =>
      cases c with
      | nil => simp [bytesLt] at hbc
      | cons z zs =>
        simp only [bytesLt] at hab hbc ⊢
        split_ifs at hab hbc ⊢ with h1 h2 h3 h4 h5 h6 <;> first
          | rfl
          | omega
          | (exact ih hab hbc)

theorem bytesLt_conn : ∀ {a b : List Nat},
    bytesLt a b = false → bytesLt b a = false → a = b := by
  intro a
  induction a with
  | nil =>
    intro b hab _
    cases b with
    | nil => rfl
    | cons y ys => simp [bytesLt] at hab
  | cons x xs ih =>
    intro b hab hba
    cases b with
    | nil => simp [bytesLt] at hba
    | cons y ys =>
      simp only [bytesLt] at hab hba
      split_ifs at hab hba with h1 h2 h3 h4 <;> first
        | omega
        | simp_all
        | (subst_vars; exact congrArg (y :: ·) (ih hab hba))

theorem bytesLt_asymm : ∀ {a b : List Nat},
    bytesLt a b = true → bytesLt b a = true → False := by
  intro a b hab hba
  have h := bytesLt_trans hab hba
  rw [bytesLt_irrefl] at h
  exact Bool.false_ne_true h

/-- Characterization of the namedtuple order as a lexicographic disjunction. -/
theorem editLe_iff {a b : Edit} : editLe a b = true ↔
    bytesLt a.edit_type b.edit_type = true ∨
      (a.edit_type = b.edit_type ∧
        (a.offset < b.offset ∨
          (a.offset = b.offset ∧
            (a.length < b.length ∨
              (a.length = b.length ∧ bytesLe a.replacement b.replacement = true))))) := by
  unfold editLe
  split_ifs with h1 h2 h3 <;>
    simp_all [bytesLt_irrefl]

theorem editR_refl (a : Edit) : editR a a := by
  simp [editR, editLe_iff, bytesLe]

theorem editR_trans {a b c : Edit} (hab : editR a b) (hbc : editR b c) : editR a c := by
  simp only [editR, editLe_iff, bytesLe, Bool.or_eq_true, beq_iff_eq] at hab hbc ⊢
  rcases hab with h | ⟨he, h⟩ <;> rcases hbc with h' | ⟨he', h'⟩
  · exact Or.inl (bytesLt_trans h h')
  · exact Or.inl (he' ▸ h)
  · exact Or.inl (he ▸ h')
  · refine Or.inr ⟨he.trans he', ?_⟩
    rcases h with h | ⟨ho, h⟩ <;> rcases h' with h' | ⟨ho', h'⟩
    · exact Or.inl (h.trans h')
    · exact Or.inl (ho' ▸ h)
    · exact Or.inl (ho ▸ h')
    · refine Or.inr ⟨ho.trans ho', ?_⟩
      rcases h with h | ⟨hl, h⟩ <;> rcases h' with h' | ⟨hl', h'⟩
      · exact Or.inl (h.trans h')
      · exact Or.inl (hl' ▸ h)
      · exact Or.inl (hl ▸ h')
      · refine Or.inr ⟨hl.trans hl', ?_⟩
        rcases h with h | h <;> rcases h' with h' | h'
        · exact Or.inl (bytesLt_trans h h')
        · exact Or.inl (h' ▸ h)
        · exact Or.inl (h ▸ h')
        · exact Or.inr (h.trans h')

theorem editR_total (a b : Edit) : editR a b ∨ editR b a := by
  simp only [editR, editLe_iff, bytesLe, Bool.or_eq_true, beq_iff_eq]
  by_cases h1 : bytesLt a.edit_type b.edit_type = true
  · exact Or.inl (Or.inl h1)
  · by_cases h2 : bytesLt b.edit_type a.edit_type = true
    · exact Or.inr (Or.inl h2)
    · have he : a.edit_type = b.edit_type :=
        bytesLt_conn (Bool.not_eq_true _ ▸ h1) (Bool.not_eq_true _ ▸ h2)
      rcases lt_trichotomy a.offset b.offset with ho | ho | ho
      · exact Or.inl (Or.inr ⟨he, Or.inl ho⟩)
      · rcases lt_trichotomy a.length b.length with hl | hl | hl
        · exact Or.inl (Or.inr ⟨he, Or.inr ⟨ho, Or.inl hl⟩⟩)
        · by_cases h3 : bytesLt a.replacement b.replacement = true
          · exact Or.inl (Or.inr ⟨he, Or.inr ⟨ho, Or.inr ⟨hl, Or.inl h3⟩⟩⟩)
          · by_cases h4 : bytesLt b.replacement a.replacement = true
            · exact Or.inr (Or.inr ⟨he.symm, Or.inr ⟨ho.symm, Or.inr ⟨hl.symm, Or.inl h4⟩⟩⟩)
            · have hr : a.replacement = b.replacement :=
                bytesLt_conn (Bool.not_eq_true _ ▸ h3) (Bool.not_eq_true _ ▸ h4)
              exact Or.inl (Or.inr ⟨he, Or.inr ⟨ho, Or.inr ⟨hl, Or.inr hr⟩⟩⟩)
        · exact Or.inr (Or.inr ⟨he.symm, Or.inr ⟨ho.symm, Or.inl hl⟩⟩)
      · exact Or.inr (Or.inr ⟨he.symm, Or.inl ho⟩)

theorem editR_antisymm {a b : Edit} (hab : editR a b) (hba : editR b a) : a = b := by
  simp only [editR, editLe_iff, bytesLe, Bool.or_eq_true, beq_iff_eq] at hab hba
  obtain ⟨at_, ao, al, ar⟩ := a
  obtain ⟨bt, bo, bl, br⟩ := b
  simp only at hab hba ⊢
  rcases hab with h | ⟨he, hab⟩
  · rcases hba with h' | ⟨he', _⟩
    · exact absurd h' (by intro h'; exact bytesLt_asymm h h')
    · rw [he'] at h; rw [bytesLt_irrefl] at h; exact absurd h (by simp)
  · rcases hba with h' | ⟨_, hba⟩
    · rw [he] at h'; rw [bytesLt_irrefl] at h'; exact absurd h' (by simp)
    · subst he
      rcases hab with ho | ⟨ho, hab⟩ <;> rcases hba with ho' | ⟨ho', hba⟩ <;>
          try omega
      subst ho
      rcases hab with hl | ⟨hl, hab⟩ <;> rcases hba with hl' | ⟨hl', hba⟩ <;>
          try omega
      subst hl
      rcases hab with hr | hr <;> rcases hba with hr' | hr'
      · exact absurd hr' (by intro h'; exact bytesLt_asymm hr h')
      · rw [hr']
      · rw [hr, bytesLt_irrefl] at hr'; simp at hr'
      · simp [hr]

instance : IsTotal Edit editR := ⟨editR_total⟩

instance : IsTrans Edit editR := ⟨fun _ _ _ => editR_trans⟩

instance : IsRefl Edit editR := ⟨editR_refl⟩

instance : IsAntisymm Edit editR := ⟨fun _ _ => editR_antisymm⟩

theorem sortEdits_sorted (l : List Edit) : List.Sorted editR (sortEdits l) :=
  List.sorted_insertionSort editR l

theorem sortEdits_perm (l : List Edit) : List.Perm (sortEdits l) l :=
  List.perm_insertionSort editR l

/-- The ascending sort of an edit list is the unique sorted list with the same
elements: any sorted permutation of `l` is `sortEdits l`. -/
theorem sortEdits_eq_of_sorted {l m : List Edit} (hp : List.Perm l m)
    (hm : List.Sorted editR m) : sortEdits l = m :=
  List.eq_of_perm_of_sorted ((sortEdits_perm l).trans hp) (sortEdits_sorted l) hm

/-! ### The visit order of the per-file pass -/

theorem visitOrder_pairwise (l : List Edit) :
    List.Pairwise (fun a b => editR b a) (visitOrder l) := by
  rw [visitOrder, List.pairwise_reverse]
  exact sortEdits_sorted l

theorem editR_offset_le {a b : Edit} (h : editR a b)
    (ht : a.edit_type = b.edit_type) : a.offset ≤ b.offset := by
  rw [editR, editLe_iff] at h
  rcases h with h | ⟨_, h⟩
  · rw [ht, bytesLt_irrefl] at h; simp at h
  · rcases h with h | ⟨h, _⟩ <;> omega

/-- Two records never compare equal under `editLe`-antisymmetry unless they
are identical; in particular distinct offsets make distinct records. -/
theorem ne_of_offset_ne {a b : Edit} (h : a.offset ≠ b.offset) : a ≠ b := by
  intro he; exact h (he ▸ rfl)

/-- Folding the loop body over records with pairwise different offsets from a
state whose `last_edit` also differs in offset from all of them applies every
record: no duplicate or conflict branch can fire. -/
theorem foldl_editStep_all_applied :
    ∀ (L : List Edit) (p : Edit) (buf : List Nat) (ec errc : Nat),
    List.Chain' (fun a b => a.offset ≠ b.offset) (p :: L) →
    L.foldl editStep ⟨buf, some p, ec, errc⟩ =
      ⟨L.foldl applyContents buf, some (L.getLastD p), ec + L.length, errc⟩ := by
  intro L
  induction L with
  | nil => intro p buf ec errc _; simp
  | cons e rest ih =>
    intro p buf ec errc hch
    have hpe : p.offset ≠ e.offset := (List.chain'_cons.mp hch).1
    have hne : e ≠ p := ne_of_offset_ne (Ne.symm hpe)
    have hstep : editStep ⟨buf, some p, ec, errc⟩ e =
        ⟨applyContents buf e, some e, ec + 1, errc⟩ := by
      simp only [editStep, hne, if_false]
      rw [if_neg]
      intro ⟨_, ho, _⟩
      exact hpe ho.symm
    rw [List.foldl_cons, hstep, ih e (applyContents buf e) (ec + 1) errc
      (List.chain'_cons.mp hch).2, List.foldl_cons, List.getLastD_cons,
      List.length_cons]
    refine congrArg (PassState.mk _ _ · _) ?_
    omega

/-- On a collection whose visit order has pairwise different adjacent offsets,
the pass applies every record: the final buffer is the fold of the buffer
mutations over the visit order, the edit count is the number of records, and
no errors are reported. -/
theorem applyFile_all_applied (buf : List Nat) (edits : List Edit)
    (h : List.Chain' (fun a b => a.offset ≠ b.offset) (visitOrder edits)) :
    applyEditsToSingleFile buf edits =
      ((visitOrder edits).foldl applyContents buf, (visitOrder edits).length, 0) := by
  unfold applyEditsToSingleFile
  cases hv : visitOrder edits with
  | nil => simp
  | cons m M =>
    rw [hv] at h
    have hstep : editStep ⟨buf, none, 0, 0⟩ m =
        ⟨applyContents buf m, some m, 1, 0⟩ := by
      simp [editStep]
    simp only [List.foldl_cons, hstep]
    rw [foldl_editStep_all_applied M m (applyContents buf m) 1 0 h]
    simp
    omega

/-! ### Batch driver arithmetic -/

theorem applyEditsGo_spec (fc : String → List Nat) :
    ∀ (l : List (String × List Edit)) (ec errc : Nat),
    applyEditsGo fc l ec errc =
      -(((errc + (l.map fun b => (applyEditsToSingleFile (fc b.1) b.2).2.2).sum : Nat)) : Int) := by
  intro l
  induction l with
  | nil => intro ec errc; simp [applyEditsGo]
  | cons b rest ih =>
    intro ec errc
    rw [applyEditsGo, ih]
    simp only [List.map_cons, List.sum_cons]
    congr 1
    omega

/-! ### Small evaluation lemmas for the per-file pass -/

theorem applyFile_single (buf : List Nat) (e : Edit) :
    applyEditsToSingleFile buf [e] = (applyContents buf e, 1, 0) := by
  have hv : visitOrder [e] = [e] := by
    simp [visitOrder, sortEdits, List.insertionSort, List.orderedInsert]
  unfold applyEditsToSingleFile
  rw [hv]
  simp [editStep]

theorem sortEdits_pair (a b : Edit) :
    sortEdits [a, b] = if editR a b then [a, b] else [b, a] := by
  by_cases h : editR a b <;>
    simp [sortEdits, List.insertionSort, List.orderedInsert, h]

/-! ### Duplicate handling -/

/-- A collection is conflict-free when records agreeing on kind, offset and
length are fully identical. -/
def noConflictIn (l : List Edit) : Prop :=
  ∀ a ∈ l, ∀ b ∈ l,
    a.edit_type = b.edit_type → a.offset = b.offset → a.length = b.length → a = b

/-- In a conflict-free context every loop iteration leaves `last_edit` equal
to the record just visited: the record is either applied or skipped as an
exact duplicate of the current `last_edit`. -/
theorem editStep_lastEdit {S : List Edit} (hS : noConflictIn S) {e : Edit}
    (he : e ∈ S) (st : PassState)
    (hst : st.lastEdit = none ∨ ∃ p, st.lastEdit = some p ∧ p ∈ S) :
    (editStep st e).lastEdit = some e := by
  rcases hst with h0 | ⟨p, hp, hpS⟩
  · simp [editStep, h0]
  · by_cases he1 : e = p
    · subst he1
      simp [editStep, hp]
    · by_cases hc : e.edit_type = p.edit_type ∧ e.offset = p.offset ∧ e.length = p.length
      · exact absurd (hS e he p hpS hc.1 hc.2.1 hc.2.2) he1
      · simp [editStep, hp, he1, hc]

theorem foldl_editStep_last {S : List Edit} (hS : noConflictIn S) :
    ∀ (M : List Edit) (st : PassState) (e : Edit), (∀ x ∈ M, x ∈ S) → e ∈ S →
    (st.lastEdit = none ∨ ∃ p, st.lastEdit = some p ∧ p ∈ S) →
    ((M ++ [e]).foldl editStep st).lastEdit = some e := by
  intro M
  induction M with
  | nil =>
    intro st e _ he hst
    exact editStep_lastEdit hS he st hst
  | cons m M' ih =>
    intro st e hmem he hst
    have hm : m ∈ S := hmem m (by simp)
    have hst' : (editStep st m).lastEdit = some m := editStep_lastEdit hS hm st hst
    rw [List.cons_append, List.foldl_cons]
    exact ih (editStep st m) e (fun x hx => hmem x (by simp [hx])) he
      (Or.inr ⟨m, hst', hm⟩)

/-- Inserting an exact duplicate next to its original preserves sortedness. -/
theorem sorted_insert_dup {A B : List Edit} {e : Edit}
    (h : List.Sorted editR (A ++ e :: B)) :
    List.Sorted editR (A ++ e :: e :: B) := by
  rw [List.Sorted, List.pairwise_append] at h ⊢
  obtain ⟨hA, hEB, hX⟩ := h
  rw [List.pairwise_cons] at hEB
  obtain ⟨hEall, hB⟩ := hEB
  refine ⟨hA, ?_, ?_⟩
  · rw [List.pairwise_cons]
    refine ⟨?_, List.pairwise_cons.mpr ⟨hEall, hB⟩⟩
    intro y hy
    rcases List.mem_cons.mp hy with rfl | hy
    · exact editR_refl y
    · exact hEall y hy
  · intro x hx y hy
    rcases List.mem_cons.mp hy with rfl | hy
    · exact hX x hx y (by simp)
    · exact hX x hx y (by simp [List.mem_cons.mp hy])

/-- Appending a duplicate of a member re-sorts to the original sorted list
with one extra copy of that member in place. -/
theorem sortEdits_append_dup {L : List Edit} {e : Edit} {A B : List Edit}
    (hAB : sortEdits L = A ++ e :: B) :
    sortEdits (L ++ [e]) = A ++ e :: e :: B := by
  have hperm : List.Perm (L ++ [e]) (A ++ e :: e :: B) := by
    have h1 : List.Perm L (A ++ e :: B) := by
      have := sortEdits_perm L
      rw [hAB] at this
      exact this.symm
    have h2 : List.Perm (L ++ [e]) ((A ++ e :: B) ++ [e]) := h1.append_right [e]
    have h3 : (A ++ e :: B) ++ [e] = A ++ e :: (B ++ [e]) := by simp
    have h4 : List.Perm (A ++ e :: (B ++ [e])) (A ++ e :: e :: B) :=
      List.Perm.append_left A ((List.perm_append_singleton e B).cons e)
    rw [h3] at h2
    exact h2.trans h4
  have hs : List.Sorted editR (A ++ e :: e :: B) := by
    have := sortEdits_sorted L
    rw [hAB] at this
    exact sorted_insert_dup this
  exact sortEdits_eq_of_sorted hperm hs

theorem editStep_self {st : PassState} {e : Edit} (h : st.lastEdit = some e) :
    editStep st e = st := by
  obtain ⟨c, le_, ec, er⟩ := st
  simp only at h
  subst h
  simp [editStep]

/-- Appending a field-for-field copy of a member to a conflict-free collection
changes nothing: the pass state after the sorted-reverse traversal is
identical, so the buffer and both counters agree. -/
theorem applyFile_append_dup (buf : List Nat) (L : List Edit) (e : Edit)
    (heL : e ∈ L) (hnc : noConflictIn L) :
    applyEditsToSingleFile buf (L ++ [e]) = applyEditsToSingleFile buf L := by
  have heS : e ∈ sortEdits L := (sortEdits_perm L).mem_iff.mpr heL
  obtain ⟨A, B, hAB⟩ := List.append_of_mem heS
  have hplus : sortEdits (L ++ [e]) = A ++ e :: e :: B := sortEdits_append_dup hAB
  have hmemL : ∀ x ∈ A ++ e :: B, x ∈ L := by
    intro x hx
    have hx2 : x ∈ sortEdits L := hAB ▸ hx
    exact (sortEdits_perm L).mem_iff.mp hx2
  have hmemB : ∀ x ∈ B.reverse, x ∈ L := by
    intro x hx
    rw [List.mem_reverse] at hx
    exact hmemL x (by simp [hx])
  unfold applyEditsToSingleFile
  rw [visitOrder, visitOrder, hAB, hplus]
  have hrev1 : (A ++ e :: B).reverse = (B.reverse ++ [e]) ++ A.reverse := by simp
  have hrev2 : (A ++ e :: e :: B).reverse =
      ((B.reverse ++ [e]) ++ [e]) ++ A.reverse := by simp
  rw [hrev1, hrev2]
  simp only [List.foldl_append, List.foldl_cons, List.foldl_nil]
  have hlast : (editStep (B.reverse.foldl editStep ⟨buf, none, 0, 0⟩) e).lastEdit
      = some e := by
    have h := foldl_editStep_last hnc B.reverse ⟨buf, none, 0, 0⟩ e hmemB heL
      (Or.inl rfl)
    rwa [List.foldl_append, List.foldl_cons, List.foldl_nil] at h
  rw [editStep_self hlast]

/-! ### Splice arithmetic -/

theorem take_min_length {α : Type} (l : List α) (a : Nat) :
    l.take (min a l.length) = l.take a := by
  rcases le_total a l.length with h | h
  · rw [min_eq_left h]
  · rw [min_eq_right h, List.take_length, List.take_of_length_le h]

theorem drop_min_length {α : Type} (l : List α) (a : Nat) :
    l.drop (min a l.length) = l.drop a := by
  rcases le_total a l.length with h | h
  · rw [min_eq_left h]
  · rw [min_eq_right h, List.drop_length, List.drop_eq_nil_of_le h]

/-- For a non-negative offset and length, the Python splice is the plain
take/append/drop splice (clamping happens inside `take`/`drop`). -/
theorem pySplice_nonneg (buf : List Nat) (o l : Int) (r : List Nat)
    (h0 : 0 ≤ o) (hl : 0 ≤ l) :
    pySplice buf o (o + l) r =
      buf.take o.toNat ++ r ++ buf.drop (o.toNat + l.toNat) := by
  simp only [pySplice, pyIndex, if_neg (show ¬ o < 0 by omega),
    if_neg (show ¬ o + l < 0 by omega)]
  have hadd : (o + l).toNat = o.toNat + l.toNat := by omega
  rw [hadd]
  have hmax : max (min o.toNat buf.length) (min (o.toNat + l.toNat) buf.length)
      = min (o.toNat + l.toNat) buf.length := by omega
  rw [hmax, take_min_length, drop_min_length]

/-- An applied edit with a non-empty replacement never triggers the deletion
heuristic: it is the plain splice. -/
theorem applyContents_nonempty (buf : List Nat) (e : Edit)
    (hr : e.replacement ≠ []) (h0 : 0 ≤ e.offset) (hl : 0 ≤ e.length) :
    applyContents buf e =
      buf.take e.offset.toNat ++ e.replacement ++
        buf.drop (e.offset.toNat + e.length.toNat) := by
  unfold applyContents
  rw [if_neg hr, pySplice_nonneg buf e.offset e.length e.replacement h0 hl]

theorem applyContents_length (buf : List Nat) (e : Edit)
    (hr : e.replacement ≠ []) (h0 : 0 ≤ e.offset) (hl : 0 ≤ e.length)
    (hin : e.offset + e.length ≤ (buf.length : Int)) :
    ((applyContents buf e).length : Int) =
      buf.length + e.replacement.length - e.length := by
  rw [applyContents_nonempty buf e hr h0 hl]
  simp only [List.length_append, List.length_take, List.length_drop]
  omega

/-- Core exchange law for two disjoint in-bounds splices: splicing at the
higher range first and then at the lower range (whose indices are unshifted)
equals splicing at the lower range first and then at the higher range with
its start index moved by the length difference of the lower splice. -/
theorem splice_comm_nat (buf ra rb : List Nat) (oa la ob lb : Nat)
    (h1 : ob + lb ≤ oa) (h2 : oa + la ≤ buf.length) :
    (buf.take oa ++ ra ++ buf.drop (oa + la)).take ob ++ rb ++
        (buf.take oa ++ ra ++ buf.drop (oa + la)).drop (ob + lb)
      = (buf.take ob ++ rb ++ buf.drop (ob + lb)).take (oa + rb.length - lb)
          ++ ra ++
        (buf.take ob ++ rb ++ buf.drop (ob + lb)).drop
          (oa + rb.length - lb + la) := by
  have hoa : oa ≤ buf.length := by omega
  have hob : ob ≤ buf.length := by omega
  have hL1 : (buf.take oa ++ ra ++ buf.drop (oa + la)).take ob = buf.take ob := by
    rw [List.append_assoc, List.take_append_eq_append_take, List.length_take]
    have hz : ob - min oa buf.length = 0 := by omega
    rw [hz, List.take_zero, List.append_nil, List.take_take]
    congr 1
    omega
  have hL2 : (buf.take oa ++ ra ++ buf.drop (oa + la)).drop (ob + lb)
      = (buf.drop (ob + lb)).take (oa - (ob + lb)) ++ ra ++ buf.drop (oa + la) := by
    rw [List.append_assoc, List.drop_append_eq_append_drop, List.length_take]
    have hz : ob + lb - min oa buf.length = 0 := by omega
    rw [hz, List.drop_zero, List.drop_take, List.append_assoc]
  have hR1 : (buf.take ob ++ rb ++ buf.drop (ob + lb)).take (oa + rb.length - lb)
      = buf.take ob ++ rb ++ (buf.drop (ob + lb)).take (oa - (ob + lb)) := by
    rw [List.append_assoc, List.take_append_eq_append_take, List.length_take,
      List.take_take]
    have hm : min (oa + rb.length - lb) ob = ob := by omega
    rw [hm]
    rw [List.take_append_eq_append_take]
    have hr1 : rb.take (oa + rb.length - lb - min ob buf.length) = rb := by
      apply List.take_of_length_le
      omega
    rw [hr1]
    have hr2 : oa + rb.length - lb - min ob buf.length - rb.length
        = oa - (ob + lb) := by omega
    rw [hr2, List.append_assoc]
  have hR2 : (buf.take ob ++ rb ++ buf.drop (ob + lb)).drop
        (oa + rb.length - lb + la)
      = buf.drop (oa + la) := by
    rw [List.append_assoc, List.drop_append_eq_append_drop, List.length_take]
    have hd1 : (buf.take ob).drop (oa + rb.length - lb + la) = [] := by
      apply List.drop_eq_nil_of_le
      rw [List.length_take]
      omega
    rw [hd1, List.nil_append, List.drop_append_eq_append_drop]
    have hd2 : rb.drop (oa + rb.length - lb + la - min ob buf.length) = [] := by
      apply List.drop_eq_nil_of_le
      omega
    rw [hd2, List.nil_append, List.drop_drop]
    congr 1
    omega
  rw [hL1, hL2, hR1, hR2]
  simp [List.append_assoc]

/-! ### Exchange laws for disjoint edits -/

theorem shiftAfter_of_lt {b a : Edit} (h : b.offset < a.offset) :
    shiftAfter b a =
      ⟨a.edit_type, a.offset + ((b.replacement.length : Int) - b.length),
        a.length, a.replacement⟩ := by
  rw [shiftAfter, if_pos h]

theorem shiftAfter_of_not_lt {b a : Edit} (h : ¬ b.offset < a.offset) :
    shiftAfter b a = a := by
  rw [shiftAfter, if_neg h]


/-- Applying the higher edit `a` first and then the untouched lower edit `b`
equals applying `b` first and then `a` with its offset recomputed. -/
theorem applyContents_comm (buf : List Nat) (a b : Edit)
    (hbo : 0 ≤ b.offset) (hbl : 0 ≤ b.length) (hal : 0 ≤ a.length)
    (hdisj : b.offset + b.length ≤ a.offset)
    (hain : a.offset + a.length ≤ (buf.length : Int))
    (hra : a.replacement ≠ []) (hrb : b.replacement ≠ [])
    (hlt : b.offset < a.offset) :
    applyContents (applyContents buf a) b
      = applyContents (applyContents buf b) (shiftAfter b a) := by
  have hao : 0 ≤ a.offset := by omega
  have e1 : applyContents buf a =
      buf.take a.offset.toNat ++ a.replacement ++
        buf.drop (a.offset.toNat + a.length.toNat) :=
    applyContents_nonempty buf a hra hao hal
  have e2 : applyContents buf b =
      buf.take b.offset.toNat ++ b.replacement ++
        buf.drop (b.offset.toNat + b.length.toNat) :=
    applyContents_nonempty buf b hrb hbo hbl
  have e3 : applyContents (applyContents buf a) b =
      (applyContents buf a).take b.offset.toNat ++ b.replacement ++
        (applyContents buf a).drop (b.offset.toNat + b.length.toNat) :=
    applyContents_nonempty _ b hrb hbo hbl
  have e4 : applyContents (applyContents buf b) (shiftAfter b a) =
      (applyContents buf b).take
          (a.offset + ((b.replacement.length : Int) - b.length)).toNat
        ++ a.replacement ++
        (applyContents buf b).drop
          ((a.offset + ((b.replacement.length : Int) - b.length)).toNat
            + a.length.toNat) := by
    rw [shiftAfter_of_lt hlt]
    exact applyContents_nonempty _
      ⟨a.edit_type, a.offset + ((b.replacement.length : Int) - b.length),
        a.length, a.replacement⟩ hra (by simp; omega) hal
  rw [e3, e4, e1, e2]
  have hta : (a.offset + ((b.replacement.length : Int) - b.length)).toNat
      = a.offset.toNat + b.replacement.length - b.length.toNat := by
    omega
  rw [hta]
  exact splice_comm_nat buf a.replacement b.replacement a.offset.toNat
    a.length.toNat b.offset.toNat b.length.toNat (by omega) (by omega)

/-- The two offset recomputations commute on any third edit that is disjoint
from both of the exchanged edits. -/
theorem shiftAfter_comm (a b z : Edit)
    (hba : b.offset + b.length ≤ a.offset) (hlt : b.offset < a.offset)
    (hbl : 0 ≤ b.length) (hal : 0 ≤ a.length) (hzl : 0 ≤ z.length)
    (hrb : b.replacement ≠ []) (hra : a.replacement ≠ [])
    (hza : z.offset + z.length ≤ a.offset ∨ a.offset + a.length ≤ z.offset)
    (hzb : z.offset + z.length ≤ b.offset ∨ b.offset + b.length ≤ z.offset)
    (hzan : z.offset ≠ a.offset) (hzbn : z.offset ≠ b.offset) :
    shiftAfter b (shiftAfter a z)
      = shiftAfter (shiftAfter b a) (shiftAfter b z) := by
  have hrb1 : 1 ≤ (b.replacement.length : Int) := by
    have := List.length_pos.mpr hrb
    omega
  have hra1 : 1 ≤ (a.replacement.length : Int) := by
    have := List.length_pos.mpr hra
    omega
  have e3 : shiftAfter b a =
      ⟨a.edit_type, a.offset + ((b.replacement.length : Int) - b.length),
        a.length, a.replacement⟩ := shiftAfter_of_lt hlt
  rcases hza with hza | hza <;> rcases hzb with hzb | hzb
  · -- z lies below both ranges: no shift happens anywhere
    have e1 : shiftAfter a z = z := shiftAfter_of_not_lt (by omega)
    have e2 : shiftAfter b z = z := shiftAfter_of_not_lt (by omega)
    have e4 : shiftAfter
        (⟨a.edit_type, a.offset + ((b.replacement.length : Int) - b.length),
          a.length, a.replacement⟩ : Edit) z = z :=
      shiftAfter_of_not_lt (show ¬ (a.offset +
        ((b.replacement.length : Int) - b.length)) < z.offset by omega)
    rw [e1, e2, e3, e4]
  · -- z lies between the two ranges: only the lower edit shifts it
    have e1 : shiftAfter a z = z := shiftAfter_of_not_lt (by omega)
    have e2 : shiftAfter b z =
        ⟨z.edit_type, z.offset + ((b.replacement.length : Int) - b.length),
          z.length, z.replacement⟩ := shiftAfter_of_lt (by omega)
    have e4 : shiftAfter
        (⟨a.edit_type, a.offset + ((b.replacement.length : Int) - b.length),
          a.length, a.replacement⟩ : Edit)
        (⟨z.edit_type, z.offset + ((b.replacement.length : Int) - b.length),
          z.length, z.replacement⟩ : Edit) =
        ⟨z.edit_type, z.offset + ((b.replacement.length : Int) - b.length),
          z.length, z.replacement⟩ :=
      shiftAfter_of_not_lt (show ¬ (a.offset +
        ((b.replacement.length : Int) - b.length)) <
          z.offset + ((b.replacement.length : Int) - b.length) by omega)
    rw [e1, e2, e3, e4]
  · exfalso
    omega
  · -- z lies above both ranges: both shifts apply, in either order
    have e1 : shiftAfter a z =
        ⟨z.edit_type, z.offset + ((a.replacement.length : Int) - a.length),
          z.length, z.replacement⟩ := shiftAfter_of_lt (by omega)
    have e2 : shiftAfter b z =
        ⟨z.edit_type, z.offset + ((b.replacement.length : Int) - b.length),
          z.length, z.replacement⟩ := shiftAfter_of_lt (by omega)
    have e5 : shiftAfter b
        (⟨z.edit_type, z.offset + ((a.replacement.length : Int) - a.length),
          z.length, z.replacement⟩ : Edit) =
        ⟨z.edit_type, z.offset + ((a.replacement.length : Int) - a.length)
            + ((b.replacement.length : Int) - b.length),
          z.length, z.replacement⟩ :=
      shiftAfter_of_lt (show b.offset <
        z.offset + ((a.replacement.length : Int) - a.length) by omega)
    have e6 : shiftAfter
        (⟨a.edit_type, a.offset + ((b.replacement.length : Int) - b.length),
          a.length, a.replacement⟩ : Edit)
        (⟨z.edit_type, z.offset + ((b.replacement.length : Int) - b.length),
          z.length, z.replacement⟩ : Edit) =
        ⟨z.edit_type, z.offset + ((b.replacement.length : Int) - b.length)
            + ((a.replacement.length : Int) - a.length),
          z.length, z.replacement⟩ :=
      shiftAfter_of_lt (show a.offset +
        ((b.replacement.length : Int) - b.length) <
          z.offset + ((b.replacement.length : Int) - b.length) by omega)
    rw [e1, e2, e3, e5, e6]
    have harith : z.offset + ((a.replacement.length : Int) - a.length)
          + ((b.replacement.length : Int) - b.length)
        = z.offset + ((b.replacement.length : Int) - b.length)
          + ((a.replacement.length : Int) - a.length) := by ring
    rw [harith]

/-! ### Validity of a collection of pending edits -/

/-- Modelled from the spec: hypotheses of the offset-stability property for a
buffer and a set of pending edits — every edit is in bounds with a non-empty
replacement, offsets are pairwise distinct, and ranges are pairwise
non-overlapping. -/
def editsOk (buf : List Nat) (l : List Edit) : Prop :=
  (∀ e ∈ l, 0 ≤ e.offset ∧ 0 ≤ e.length ∧
      e.offset + e.length ≤ (buf.length : Int) ∧ e.replacement ≠ []) ∧
  l.Pairwise (fun a b => a.offset ≠ b.offset) ∧
  l.Pairwise (fun a b =>
    a.offset + a.length ≤ b.offset ∨ b.offset + b.length ≤ a.offset)

theorem editsOk_perm {l m : List Edit} (hp : List.Perm l m) {buf : List Nat}
    (h : editsOk buf l) : editsOk buf m := by
  obtain ⟨hb, hd, hj⟩ := h
  refine ⟨fun e he => hb e (hp.mem_iff.mpr he), ?_, ?_⟩
  · exact (hp.pairwise_iff (fun hxy => hxy.symm)).mp hd
  · exact (hp.pairwise_iff (fun hxy => hxy.symm)).mp hj

theorem editsOk_step {buf : List Nat} {x : Edit} {l : List Edit}
    (h : editsOk buf (x :: l)) :
    editsOk (applyContents buf x) (l.map (shiftAfter x)) := by
  obtain ⟨hb, hd, hj⟩ := h
  obtain ⟨hx0, hxl, hxin, hxr⟩ := hb x (by simp)
  have hx1 : 1 ≤ (x.replacement.length : Int) := by
    have := List.length_pos.mpr hxr
    omega
  have hlen : ((applyContents buf x).length : Int) =
      buf.length + x.replacement.length - x.length :=
    applyContents_length buf x hxr hx0 hxl hxin
  have hdx : ∀ z ∈ l, x.offset ≠ z.offset := (List.pairwise_cons.mp hd).1
  have hjx : ∀ z ∈ l,
      x.offset + x.length ≤ z.offset ∨ z.offset + z.length ≤ x.offset :=
    (List.pairwise_cons.mp hj).1
  have hd' := (List.pairwise_cons.mp hd).2
  have hj' := (List.pairwise_cons.mp hj).2
  refine ⟨?_, ?_, ?_⟩
  · intro e he
    rw [List.mem_map] at he
    obtain ⟨z, hz, rfl⟩ := he
    obtain ⟨hz0, hzl, hzin, hzr⟩ := hb z (by simp [hz])
    have hjz := hjx z hz
    have hdz := hdx z hz
    refine ⟨?_, ?_, ?_, ?_⟩ <;>
      simp only [shiftAfter] <;> split_ifs <;> (try simp only []) <;>
      first
        | omega
        | exact hzr
  · rw [List.pairwise_map]
    have hcomb := hd'.and hj'
    refine hcomb.imp_of_mem ?_
    intro a b ha hb'
    rintro ⟨hne, hdj⟩
    have hja := hjx a ha
    have hjb := hjx b hb'
    obtain ⟨ha0, hal, hain, har⟩ := hb a (by simp [ha])
    obtain ⟨hb0, hbl, hbin, hbr⟩ := hb b (by simp [hb'])
    simp only [shiftAfter]
    split_ifs <;> (try simp only []) <;> omega
  · rw [List.pairwise_map]
    have hcomb := hd'.and hj'
    refine hcomb.imp_of_mem ?_
    intro a b ha hb'
    rintro ⟨hne, hdj⟩
    have hja := hjx a ha
    have hjb := hjx b hb'
    obtain ⟨ha0, hal, hain, har⟩ := hb a (by simp [ha])
    obtain ⟨hb0, hbl, hbin, hbr⟩ := hb b (by simp [hb'])
    simp only [shiftAfter]
    split_ifs <;> (try simp only []) <;> omega

/-! ### Order invariance of one-at-a-time application with recomputation -/

theorem applySeqGo_comp (l : List Edit) :
    ∀ (σ τ : Edit → Edit) (buf : List Nat),
    applySeqGo σ (l.map τ) buf = applySeqGo (fun z => σ (τ z)) l buf := by
  induction l with
  | nil => intro σ τ buf; rfl
  | cons e es ih =>
    intro σ τ buf
    have h1 : applySeqGo σ ((e :: es).map τ) buf
        = applySeqGo (fun z => shiftAfter (σ (τ e)) (σ z)) (es.map τ)
            (applyContents buf (σ (τ e))) := rfl
    rw [h1, ih]
    rfl

theorem applySeqRecomputed_nil (buf : List Nat) :
    applySeqRecomputed [] buf = buf := rfl

theorem applySeqRecomputed_cons (e : Edit) (es : List Edit) (buf : List Nat) :
    applySeqRecomputed (e :: es) buf =
      applySeqRecomputed (es.map (shiftAfter e)) (applyContents buf e) := by
  have h1 : applySeqRecomputed (e :: es) buf
      = applySeqGo (fun z => shiftAfter e z) es (applyContents buf e) := rfl
  have h2 : applySeqRecomputed (es.map (shiftAfter e)) (applyContents buf e)
      = applySeqGo (fun z => shiftAfter e z) es (applyContents buf e) :=
    applySeqGo_comp es id (shiftAfter e) (applyContents buf e)
  rw [h1, h2]

/-- Exchanging the first two (disjoint) pending edits does not change the
result of one-at-a-time application with offset recomputation. -/
theorem applySeq_swap_head (a b : Edit) (l : List Edit) (buf : List Nat)
    (h : editsOk buf (a :: b :: l)) :
    applySeqRecomputed (a :: b :: l) buf
      = applySeqRecomputed (b :: a :: l) buf := by
  -- reduce to the case where `b` is the lower edit
  obtain ⟨hb, hd, hj⟩ := h
  obtain ⟨ha0, hal, hain, har⟩ := hb a (by simp)
  obtain ⟨hb0, hbl, hbin, hbr⟩ := hb b (by simp)
  have hdab : a.offset ≠ b.offset := List.rel_of_pairwise_cons hd (by simp)
  have hjab : a.offset + a.length ≤ b.offset ∨ b.offset + b.length ≤ a.offset :=
    List.rel_of_pairwise_cons hj (by simp)
  have main : ∀ (u v : Edit) (buf : List Nat), editsOk buf (u :: v :: l) →
      v.offset + v.length ≤ u.offset → v.offset < u.offset →
      applySeqRecomputed (u :: v :: l) buf
        = applySeqRecomputed (v :: u :: l) buf := by
    intro u v buf h hvu hlt
    obtain ⟨hball, hdl, hjl⟩ := h
    obtain ⟨hu0, hul, huin, hur⟩ := hball u (by simp)
    obtain ⟨hv0, hvl, hvin, hvr⟩ := hball v (by simp)
    have hdu : ∀ z ∈ l, u.offset ≠ z.offset := by
      intro z hz
      exact List.rel_of_pairwise_cons hdl (by simp [hz])
    have hdv : ∀ z ∈ l, v.offset ≠ z.offset := by
      intro z hz
      exact List.rel_of_pairwise_cons (List.pairwise_cons.mp hdl).2 hz
    have hju : ∀ z ∈ l,
        u.offset + u.length ≤ z.offset ∨ z.offset + z.length ≤ u.offset := by
      intro z hz
      exact List.rel_of_pairwise_cons hjl (by simp [hz])
    have hjv : ∀ z ∈ l,
        v.offset + v.length ≤ z.offset ∨ z.offset + z.length ≤ v.offset := by
      intro z hz
      exact List.rel_of_pairwise_cons (List.pairwise_cons.mp hjl).2 hz
    rw [applySeqRecomputed_cons, List.map_cons, applySeqRecomputed_cons,
      applySeqRecomputed_cons, List.map_cons, applySeqRecomputed_cons]
    have hbufs : applyContents (applyContents buf u) (shiftAfter u v)
        = applyContents (applyContents buf v) (shiftAfter v u) := by
      rw [shiftAfter_of_not_lt (show ¬ u.offset < v.offset by omega)]
      exact applyContents_comm buf u v hv0 hvl hul hvu huin hur hvr hlt
    have htails : (l.map (shiftAfter u)).map (shiftAfter (shiftAfter u v))
        = (l.map (shiftAfter v)).map (shiftAfter (shiftAfter v u)) := by
      rw [List.map_map, List.map_map]
      apply List.map_congr_left
      intro z hz
      obtain ⟨hz0, hzl, hzin, hzr⟩ := hball z (by simp [hz])
      have hcomm := shiftAfter_comm u v z hvu hlt hvl hul hzl hvr hur
        (Or.symm (hju z hz)) (Or.symm (hjv z hz))
        (Ne.symm (hdu z hz)) (Ne.symm (hdv z hz))
      rw [shiftAfter_of_not_lt (show ¬ u.offset < v.offset by omega)]
      exact hcomm
    rw [hbufs, htails]
  rcases hjab with hcase | hcase
  · -- `a` is the lower edit
    have hlt : a.offset < b.offset := by omega
    exact (main b a buf
      (by
        refine ⟨?_, ?_, ?_⟩
        · intro e he
          apply hb
          simp at he ⊢
          tauto
        · exact (List.Perm.pairwise_iff (fun hxy => hxy.symm)
            (List.Perm.swap b a l)).mp hd
        · exact (List.Perm.pairwise_iff (fun hxy => hxy.symm)
            (List.Perm.swap b a l)).mp hj)
      hcase hlt).symm
  · -- `b` is the lower edit
    have hlt : b.offset < a.offset := by omega
    exact main a b buf ⟨hb, hd, hj⟩ hcase hlt

/-- Moving a pending edit from the middle of the queue to the front does not
change the result of one-at-a-time application with recomputation. -/
theorem applySeq_bubble :
    ∀ (n : Nat) (A : List Edit) (y : Edit) (B : List Edit) (buf : List Nat),
    A.length = n → editsOk buf (A ++ y :: B) →
    applySeqRecomputed (A ++ y :: B) buf
      = applySeqRecomputed (y :: (A ++ B)) buf := by
  intro n
  induction n with
  | zero =>
    intro A y B buf hA _
    rw [List.length_eq_zero] at hA
    subst hA
    rfl
  | succ k ih =>
    intro A y B buf hA hok
    cases A with
    | nil => simp at hA
    | cons a A' =>
      simp only [List.length_cons, Nat.succ_inj] at hA
      have hok' : editsOk buf (a :: (A' ++ y :: B)) := by
        rwa [List.cons_append] at hok
      have hstep := editsOk_step hok'
      rw [List.cons_append, applySeqRecomputed_cons]
      have hmap : (A' ++ y :: B).map (shiftAfter a)
          = A'.map (shiftAfter a) ++ shiftAfter a y :: B.map (shiftAfter a) := by
        simp
      rw [hmap]
      rw [ih (A'.map (shiftAfter a)) (shiftAfter a y) (B.map (shiftAfter a))
        (applyContents buf a) (by simp [hA]) (hmap ▸ hstep)]
      have hperm1 : List.Perm (a :: (A' ++ y :: B)) (y :: a :: (A' ++ B)) := by
        have h1 : List.Perm (A' ++ y :: B) (y :: (A' ++ B)) := List.perm_middle
        exact (h1.cons a).trans (List.Perm.swap y a (A' ++ B))
      have hok2 : editsOk buf (y :: a :: (A' ++ B)) := editsOk_perm hperm1 hok'
      have hR : applySeqRecomputed (y :: ((a :: A') ++ B)) buf
          = applySeqRecomputed (a :: y :: (A' ++ B)) buf := by
        have he : y :: ((a :: A') ++ B) = y :: a :: (A' ++ B) := by simp
        rw [he]
        exact applySeq_swap_head y a (A' ++ B) buf hok2
      rw [hR, applySeqRecomputed_cons a (y :: (A' ++ B)) buf]
      have hmap2 : (y :: (A' ++ B)).map (shiftAfter a)
          = shiftAfter a y :: (A'.map (shiftAfter a) ++ B.map (shiftAfter a)) := by
        simp
      rw [hmap2]

/-- One-at-a-time application with offset recomputation gives the same final
buffer for every processing order of a valid set of pending edits. -/
theorem applySeq_perm_aux :
    ∀ (n : Nat) (l m : List Edit) (buf : List Nat),
    l.length = n → List.Perm l m → editsOk buf l →
    applySeqRecomputed l buf = applySeqRecomputed m buf := by
  intro n
  induction n with
  | zero =>
    intro l m buf hl hp _
    rw [List.length_eq_zero] at hl
    subst hl
    rw [(hp.symm.eq_nil : m = [])]
  | succ k ih =>
    intro l m buf hl hp hok
    cases m with
    | nil =>
      rw [hp.eq_nil] at hl
      simp at hl
    | cons y m' =>
      have hy : y ∈ l := hp.mem_iff.mpr (by simp)
      obtain ⟨A, B, hAB⟩ := List.append_of_mem hy
      subst hAB
      rw [applySeq_bubble A.length A y B buf rfl hok]
      have hpm : List.Perm (y :: (A ++ B)) (y :: m') :=
        List.perm_middle.symm.trans hp
      have hperm2 : List.Perm (A ++ B) m' := hpm.cons_inv
      have hok2 : editsOk buf (y :: (A ++ B)) :=
        editsOk_perm List.perm_middle hok
      rw [applySeqRecomputed_cons, applySeqRecomputed_cons]
      refine ih ((A ++ B).map (shiftAfter y)) (m'.map (shiftAfter y)) _ ?_
        (hperm2.map (shiftAfter y)) (editsOk_step hok2)
      have hlen : (A ++ y :: B).length = k + 1 := hl
      simp at hlen ⊢
      omega

/-- On a strictly descending queue the recomputation never fires: the offsets
of the still-pending (lower) edits are unaffected by each application. -/
theorem applySeq_descending :
    ∀ (L : List Edit) (buf : List Nat),
    L.Pairwise (fun a b => b.offset < a.offset) →
    applySeqRecomputed L buf = L.foldl applyContents buf := by
  intro L
  induction L with
  | nil => intro buf _; rfl
  | cons e es ih =>
    intro buf hp
    rw [applySeqRecomputed_cons]
    have hmap : es.map (shiftAfter e) = es := by
      have h1 : ∀ z ∈ es, shiftAfter e z = id z := by
        intro z hz
        have := List.rel_of_pairwise_cons hp hz
        exact shiftAfter_of_not_lt (by omega)
      rw [List.map_congr_left h1, List.map_id]
    rw [hmap, List.foldl_cons]
    exact ih (applyContents buf e) (List.pairwise_cons.mp hp).2

/-- A same-kind collection given in strictly descending offset order is
visited by the per-file pass exactly in that order, and every record is
applied. -/
theorem applyFile_descending (buf : List Nat) (L : List Edit)
    (hk : ∀ a ∈ L, ∀ b ∈ L, a.edit_type = b.edit_type)
    (hdec : L.Pairwise (fun a b => b.offset < a.offset)) :
    applyEditsToSingleFile buf L = (L.foldl applyContents buf, L.length, 0) := by
  have hsort : sortEdits L = L.reverse := by
    apply sortEdits_eq_of_sorted (List.reverse_perm L).symm
    rw [List.Sorted, List.pairwise_reverse]
    refine hdec.imp_of_mem ?_
    intro a b ha hb h
    rw [editR, editLe_iff]
    exact Or.inr ⟨hk b hb a ha, Or.inl h⟩
  have hvisit : visitOrder L = L := by
    rw [visitOrder, hsort, List.reverse_reverse]
  have hchain : List.Chain' (fun a b => a.offset ≠ b.offset) (visitOrder L) := by
    rw [hvisit]
    exact (hdec.imp (fun h => by omega)).chain'
  rw [applyFile_all_applied buf L hchain, hvisit]

/-! ### Cache transparency of the stream parser -/

/-- Cache-free rendition of the per-line step: the memoization dictionary only
caches values of `resolveDirect`, so the emitted records can be described
without it. -/
def parseLineStepNC (fs : FS) (bd : List Char) (out : List (List Char × Edit))
    (line : List Char) : List (List Char × Edit) :=
  match parseFields line with
  | none => out
  | some (t, p, o, l, r) =>
    match resolveDirect fs bd p with
    | none => out
    | some rp =>
      if rp = [] then out
      else
        match parsePyInt o, parsePyInt l with
        | some oi, some li =>
          out ++ [(rp, ⟨t.map Char.toNat, oi, li,
            (decodeReplacement r).map Char.toNat⟩)]
        | _, _ => out

/-- Every entry of the memoization dictionary records the cache-free
resolution of its key. -/
def cacheOK (fs : FS) (bd : List Char)
    (c : List (List Char × Option (List Char))) : Prop :=
  ∀ pr ∈ c, pr.2 = resolveDirect fs bd pr.1

theorem lookupA_mem {c : List (List Char × Option (List Char))}
    {p : List Char} {r : Option (List Char)} (h : lookupA c p = some r) :
    (p, r) ∈ c := by
  induction c with
  | nil => simp [lookupA] at h
  | cons e rest ih =>
    rw [lookupA] at h
    split_ifs at h with he
    · have hr : r = e.2 := (Option.some_inj.mp h).symm
      subst hr
      have hpe : (p, e.2) = e := by rw [← he]
      rw [hpe]
      exact List.mem_cons_self e rest
    · exact List.mem_cons_of_mem e (ih h)

theorem resolveWithCache_fst {fs : FS} {bd : List Char}
    {c : List (List Char × Option (List Char))} (hc : cacheOK fs bd c)
    (p : List Char) :
    (resolveWithCache fs bd c p).1 = resolveDirect fs bd p := by
  rw [resolveWithCache]
  cases hl : lookupA c p with
  | none => rfl
  | some r => exact hc (p, r) (lookupA_mem hl)

theorem resolveWithCache_snd {fs : FS} {bd : List Char}
    {c : List (List Char × Option (List Char))} (hc : cacheOK fs bd c)
    (p : List Char) :
    cacheOK fs bd (resolveWithCache fs bd c p).2 := by
  rw [resolveWithCache]
  cases hl : lookupA c p with
  | none =>
    intro pr hpr
    rcases List.mem_cons.mp hpr with rfl | hpr
    · rfl
    · exact hc pr hpr
  | some r => exact hc

theorem parseLineStep_NC {fs : FS} {bd : List Char}
    (st : List (List Char × Option (List Char)) × List (List Char × Edit))
    (line : List Char) (hc : cacheOK fs bd st.1) :
    (parseLineStep fs bd st line).2 = parseLineStepNC fs bd st.2 line ∧
      cacheOK fs bd (parseLineStep fs bd st line).1 := by
  simp only [parseLineStep, parseLineStepNC]
  cases hf : parseFields line with
  | none => exact ⟨rfl, hc⟩
  | some q =>
    obtain ⟨t, p, o, l, r⟩ := q
    simp only
    rw [resolveWithCache_fst hc p]
    have h2 := resolveWithCache_snd hc p
    cases hres : resolveDirect fs bd p with
    | none => exact ⟨rfl, h2⟩
    | some rp =>
      simp only
      split_ifs with hrp
      · exact ⟨rfl, h2⟩
      · cases hpo : parsePyInt o with
        | none => exact ⟨rfl, h2⟩
        | some oi =>
          cases hpl : parsePyInt l with
          | none => exact ⟨rfl, h2⟩
          | some li => exact ⟨rfl, h2⟩

theorem parseFold_NC {fs : FS} {bd : List Char} :
    ∀ (lines : List (List Char))
      (st : List (List Char × Option (List Char)) × List (List Char × Edit)),
    cacheOK fs bd st.1 →
    (lines.foldl (parseLineStep fs bd) st).2
      = lines.foldl (parseLineStepNC fs bd) st.2 := by
  intro lines
  induction lines with
  | nil => intro st _; rfl
  | cons line rest ih =>
    intro st hc
    rw [List.foldl_cons, List.foldl_cons]
    obtain ⟨h1, h2⟩ := parseLineStep_NC st line hc
    rw [ih (parseLineStep fs bd st line) h2, h1]

/-- The parser's emitted records do not depend on the memoization dictionary:
they are the cache-free fold over the input lines. -/
theorem parseEdits_NC (fs : FS) (bd : List Char) (lines : List (List Char)) :
    parseEditsFromStdin fs bd lines
      = lines.foldl (parseLineStepNC fs bd) [] := by
  unfold parseEditsFromStdin
  exact parseFold_NC lines ([], []) (by intro pr hpr; simp at hpr)

theorem parseLineStepNC_malformed {fs : FS} {bd : List Char}
    {out : List (List Char × Edit)} {line : List Char}
    (h : malformedLine line) : parseLineStepNC fs bd out line = out := by
  rw [parseLineStepNC]
  rw [malformedLine] at h
  cases hf : parseFields line with
  | none => rfl
  | some q =>
    obtain ⟨t, p, o, l, r⟩ := q
    rw [hf] at h
    simp only
    cases hres : resolveDirect fs bd p with
    | none => rfl
    | some rp =>
      simp only
      split_ifs with hrp
      · rfl
      · rcases h with h | h
        · rw [h]
        · rw [h]
          all_goals cases parsePyInt o <;> rfl

/-! ### Concrete values used by the claim witnesses and counterexamples -/

instance (l : List Edit) : Decidable (noConflictIn l) := by
  unfold noConflictIn
  exact inferInstance

/-- A filesystem model in which every path is an existing file and real path
resolution is the identity. -/
def allFS : FS := ⟨fun _ => true, fun q => q⟩

/-- A filesystem model in which every path is an existing file and the
canonical (real) path of `p` differs from `p` (a leading slash is added). -/
def canonFS : FS := ⟨fun _ => true, fun q => '/' :: q⟩

def witList1 : List Edit := [⟨strBytes "r", 3, 0, []⟩, ⟨strBytes "r", 5, 0, []⟩]

def cexBuf2 : List Nat := strBytes "a       b"

def cexHigh2 : Edit := ⟨strBytes "r", 8, 1, []⟩

def cexLow2 : Edit := ⟨strBytes "r", 0, 1, strBytes ","⟩

def witBuf2 : List Nat := strBytes "abcde"

def witHigh2 : Edit := ⟨strBytes "r", 4, 1, strBytes "Y"⟩

def witLow2 : Edit := ⟨strBytes "r", 0, 1, strBytes "XX"⟩

def witX4 : Edit := ⟨strBytes "r", 0, 1, strBytes "b"⟩

def cexE4 : Edit := ⟨strBytes "r", 0, 1, strBytes "a"⟩

/-! ### The claims -/

/-- C1 (counterexample): the Edit Applier sorts by
`(edit_type, offset, length, replacement)` — the kind tag first — not by
`(offset, length, kind, replacement)`.  For two records of different kinds at
offsets 5 and 3, the visit order is ascending in offset: the record with the
*lower* offset is visited (and applied) first, refuting the claim that the
higher-offset record is always applied first regardless of kind tags. -/
theorem claim1_counterexample :
    ((visitOrder [⟨strBytes "a", 5, 0, strBytes "x"⟩,
        ⟨strBytes "b", 3, 0, strBytes "y"⟩]).map (fun e => e.offset))
      = [3, 5] := by decide

/-- C1 (amended): the Edit Applier sorts records ascending by
`(kind, offset, length, replacement)` and visits them in reverse; hence among
records with the *same* kind tag a later-visited record never has a higher
offset — the visit order is descending in offset within each kind, while the
kind tag dominates the order across kinds. -/
theorem claim1_kind_dominates (edits : List Edit)
    (i j : Fin (visitOrder edits).length) (hij : i < j)
    (hkind : ((visitOrder edits).get j).edit_type
      = ((visitOrder edits).get i).edit_type) :
    ((visitOrder edits).get j).offset ≤ ((visitOrder edits).get i).offset := by
  have hp := visitOrder_pairwise edits
  have h := List.pairwise_iff_get.mp hp i j hij
  exact editR_offset_le h hkind

/-- C1 witness: on a concrete same-kind collection the second visited record
has the lower offset. -/
theorem claim1_witness :
    ((visitOrder witList1).get ⟨1, by decide⟩).offset
      ≤ ((visitOrder witList1).get ⟨0, by decide⟩).offset :=
  claim1_kind_dominates witList1 ⟨0, by decide⟩ ⟨1, by decide⟩ (by decide)
    (by decide)

/-- C2 (counterexample): two non-overlapping same-kind edits at strictly
decreasing offsets 8 and 0, one of them a pure deletion: applying them one at
a time in the opposite order with recomputed offsets gives a byte-different
result from the Edit Applier's sorted-then-reversed pass, because the
deletion-extension heuristic sees a different context (the lower edit places
a comma before the whitespace run, so the heuristic wipes the scanned range). -/
theorem claim2_counterexample :
    ([cexHigh2, cexLow2].Pairwise (fun a b => b.offset < a.offset)) ∧
    ([cexHigh2, cexLow2].Pairwise
      (fun a b => b.offset + b.length ≤ a.offset)) ∧
    applySeqRecomputed [cexLow2, cexHigh2] cexBuf2
      ≠ (applyEditsToSingleFile cexBuf2 [cexHigh2, cexLow2]).1 := by
  refine ⟨by decide, by decide, by decide⟩

/-- C2 (amended): for a collection of non-overlapping, in-bounds edit records
with a common kind tag, non-empty replacements and strictly decreasing
offsets, the Edit Applier's sorted-then-reversed single pass over the
original-offset buffer is byte-identical to applying the records one at a
time in *any* order with each remaining record's offset recomputed after each
application. -/
theorem claim2_offset_stability (buf : List Nat) (L Lp : List Edit)
    (hperm : List.Perm Lp L)
    (hkind : ∀ a ∈ L, ∀ b ∈ L, a.edit_type = b.edit_type)
    (hdec : L.Pairwise (fun a b => b.offset < a.offset))
    (hdisj : L.Pairwise (fun a b => b.offset + b.length ≤ a.offset))
    (hok : ∀ e ∈ L, 0 ≤ e.offset ∧ 0 ≤ e.length ∧
      e.offset + e.length ≤ (buf.length : Int) ∧ e.replacement ≠ []) :
    applySeqRecomputed Lp buf = (applyEditsToSingleFile buf L).1 := by
  have hEok : editsOk buf L :=
    ⟨hok, hdec.imp (fun h => by omega), hdisj.imp (fun h => Or.inr h)⟩
  have hEokp : editsOk buf Lp := editsOk_perm hperm.symm hEok
  rw [applySeq_perm_aux Lp.length Lp L buf rfl hperm hEokp,
    applySeq_descending L buf hdec, applyFile_descending buf L hkind hdec]

/-- C2 witness: a concrete two-edit collection applied in ascending order
with recomputation matches the Edit Applier's pass. -/
theorem claim2_witness :
    ([witHigh2, witLow2].Pairwise (fun a b => b.offset < a.offset)) ∧
    applySeqRecomputed [witLow2, witHigh2] witBuf2
      = (applyEditsToSingleFile witBuf2 [witHigh2, witLow2]).1 :=
  ⟨by decide, claim2_offset_stability witBuf2 [witHigh2, witLow2]
    [witLow2, witHigh2] (List.Perm.swap witHigh2 witLow2 []) (by decide)
    (by decide) (by decide) (by decide)⟩

/-- C3 (counterexample): two records with the same offset and length but
*different kind tags* and different replacements are not detected as a
conflict — both are applied (`edits_applied = 2`, `errors = 0`), refuting the
claim that any same-offset same-length pair with different replacements
yields one applied edit and one error. -/
theorem claim3_counterexample :
    (applyEditsToSingleFile (strBytes "z")
        [⟨strBytes "a", 0, 1, strBytes "x"⟩,
          ⟨strBytes "b", 0, 1, strBytes "y"⟩]).2 = (2, 0) ∧
    (applyEditsToSingleFile (strBytes "z")
        [⟨strBytes "a", 0, 1, strBytes "x"⟩,
          ⟨strBytes "b", 0, 1, strBytes "y"⟩]).2 ≠ (1, 1) := by
  refine ⟨by decide, by decide⟩

/-- C3 (amended): for a file whose edit collection is exactly two records
with the same *kind*, offset and length but different replacements, the Edit
Applier returns `edits_applied = 1` and `errors = 1`, and the final buffer is
the result of applying exactly one of the two records. -/
theorem claim3_conflict_same_kind (buf : List Nat) (k : List Nat) (o l : Int)
    (r1 r2 : List Nat) (hne : r1 ≠ r2) :
    (applyEditsToSingleFile buf [⟨k, o, l, r1⟩, ⟨k, o, l, r2⟩]).2.1 = 1 ∧
    (applyEditsToSingleFile buf [⟨k, o, l, r1⟩, ⟨k, o, l, r2⟩]).2.2 = 1 ∧
    ((applyEditsToSingleFile buf [⟨k, o, l, r1⟩, ⟨k, o, l, r2⟩]).1
        = (applyEditsToSingleFile buf [⟨k, o, l, r1⟩]).1 ∨
      (applyEditsToSingleFile buf [⟨k, o, l, r1⟩, ⟨k, o, l, r2⟩]).1
        = (applyEditsToSingleFile buf [⟨k, o, l, r2⟩]).1) := by
  have hv : visitOrder [(⟨k, o, l, r1⟩ : Edit), ⟨k, o, l, r2⟩]
      = if editR ⟨k, o, l, r1⟩ ⟨k, o, l, r2⟩
        then [(⟨k, o, l, r2⟩ : Edit), ⟨k, o, l, r1⟩]
        else [(⟨k, o, l, r1⟩ : Edit), ⟨k, o, l, r2⟩] := by
    rw [visitOrder, sortEdits_pair]
    split_ifs <;> rfl
  by_cases h : editR (⟨k, o, l, r1⟩ : Edit) ⟨k, o, l, r2⟩
  · rw [if_pos h] at hv
    have hfull : applyEditsToSingleFile buf
          [(⟨k, o, l, r1⟩ : Edit), ⟨k, o, l, r2⟩]
        = (applyContents buf ⟨k, o, l, r2⟩, 1, 1) := by
      unfold applyEditsToSingleFile
      rw [hv]
      simp only [List.foldl_cons, List.foldl_nil]
      simp [editStep, hne, Ne.symm hne]
    rw [hfull, applyFile_single]
    exact ⟨rfl, rfl, Or.inr rfl⟩
  · rw [if_neg h] at hv
    have hfull : applyEditsToSingleFile buf
          [(⟨k, o, l, r1⟩ : Edit), ⟨k, o, l, r2⟩]
        = (applyContents buf ⟨k, o, l, r1⟩, 1, 1) := by
      unfold applyEditsToSingleFile
      rw [hv]
      simp only [List.foldl_cons, List.foldl_nil]
      simp [editStep, hne, Ne.symm hne]
    rw [hfull, applyFile_single]
    exact ⟨rfl, rfl, Or.inl rfl⟩

/-- C3 witness: a concrete same-kind conflicting pair yields one applied edit
and one error. -/
theorem claim3_witness :
    strBytes "x" ≠ strBytes "y" ∧
    ((applyEditsToSingleFile (strBytes "z")
        [⟨strBytes "r", 0, 1, strBytes "x"⟩,
          ⟨strBytes "r", 0, 1, strBytes "y"⟩]).2.1 = 1 ∧
      (applyEditsToSingleFile (strBytes "z")
        [⟨strBytes "r", 0, 1, strBytes "x"⟩,
          ⟨strBytes "r", 0, 1, strBytes "y"⟩]).2.2 = 1 ∧
      ((applyEditsToSingleFile (strBytes "z")
          [⟨strBytes "r", 0, 1, strBytes "x"⟩,
            ⟨strBytes "r", 0, 1, strBytes "y"⟩]).1
          = (applyEditsToSingleFile (strBytes "z")
              [⟨strBytes "r", 0, 1, strBytes "x"⟩]).1 ∨
        (applyEditsToSingleFile (strBytes "z")
          [⟨strBytes "r", 0, 1, strBytes "x"⟩,
            ⟨strBytes "r", 0, 1, strBytes "y"⟩]).1
          = (applyEditsToSingleFile (strBytes "z")
              [⟨strBytes "r", 0, 1, strBytes "y"⟩]).1)) :=
  ⟨by decide, claim3_conflict_same_kind (strBytes "z") (strBytes "r") 0 1
    (strBytes "x") (strBytes "y") (by decide)⟩

/-- C4 (counterexample): appending a field-for-field copy of a *conflicting*
record changes the outcome — the duplicate is compared against the applied
record (`last_edit`), reported as a second conflict, and the error count
rises from 1 to 2, refuting the claim for arbitrary collections. -/
theorem claim4_counterexample :
    applyEditsToSingleFile (strBytes "z") ([witX4, cexE4] ++ [cexE4])
      ≠ applyEditsToSingleFile (strBytes "z") [witX4, cexE4] := by decide

/-- C4 (amended): for a *conflict-free* edit collection (any two records
agreeing on kind, offset and length are identical) and any record in it,
appending a field-for-field copy of that record yields a byte-identical final
buffer and the same `(edits_applied, errors)` pair, the duplicate
contributing zero additional errors. -/
theorem claim4_duplicate_idempotent (buf : List Nat) (L : List Edit)
    (e : Edit) (he : e ∈ L) (hnc : noConflictIn L) :
    applyEditsToSingleFile buf (L ++ [e]) = applyEditsToSingleFile buf L :=
  applyFile_append_dup buf L e he hnc

/-- C4 witness: duplicating the only record of a singleton collection changes
nothing. -/
theorem claim4_witness :
    witX4 ∈ [witX4] ∧ noConflictIn [witX4] ∧
    applyEditsToSingleFile (strBytes "z") ([witX4] ++ [witX4])
      = applyEditsToSingleFile (strBytes "z") [witX4] :=
  ⟨by decide, by decide,
    claim4_duplicate_idempotent (strBytes "z") [witX4] witX4 (by decide)
      (by decide)⟩

/-- C5 (counterexample): deleting exactly element `b` (offset 4, length 1)
from `"(a, b, c)"` does not give `"(a, c)"`: the forward scan of the
heuristic stops at the comma and does not consume the whitespace after it, so
one extra space survives. -/
theorem claim5_counterexample :
    (applyEditsToSingleFile (strBytes "(a, b, c)")
        [⟨strBytes "r", 4, 1, []⟩]).1 ≠ strBytes "(a, c)" := by decide

/-- C5 (amended): applying a single pure-deletion record covering exactly the
bytes of element `b` in `"(a, b, c)"`, the deletion-extension heuristic
removes the redundant comma (and any whitespace between the deletion point
and it) but keeps the whitespace after it: the result is `"(a,  c)"` with a
double space, one applied edit and no errors. -/
theorem claim5_deletion_extension_middle (k : List Nat) :
    applyEditsToSingleFile (strBytes "(a, b, c)") [⟨k, 4, 1, []⟩]
      = (strBytes "(a,  c)", 1, 0) := by
  rw [applyFile_single]
  rfl

/-- C6: applying a single pure-deletion record covering exactly the bytes of
the final element `b` in `"(a, b)"` yields `"(a)"`: the heuristic deletes the
backward-scanned range, removing the dangling `", "` (the separator byte and
the whitespace between it and the deletion point). -/
theorem claim6_deletion_extension_last (k : List Nat) :
    applyEditsToSingleFile (strBytes "(a, b)") [⟨k, 4, 1, []⟩]
      = (strBytes "(a)", 1, 0) := by
  rw [applyFile_single]
  rfl

/-- C7 (counterexample): in a filesystem model where the raw path `"f"` is an
existing file whose canonical path is `"/f"`, the Path Resolver returns the
raw (non-canonical) path unchanged, refuting the claim that an existing raw
path is canonicalized. -/
theorem claim7_counterexample :
    (resolveWithCache canonFS [] [] ['f']).1 ≠ some (canonFS.realpath ['f'])
      ∧ (resolveWithCache canonFS [] [] ['f']).1 = some ['f'] := by
  refine ⟨by decide, by decide⟩

/-- C7 (amended): for every raw path that denotes an existing file as given
(and is not already cached), the Path Resolver returns the raw path string
*unchanged* — no canonicalization (`realpath`) is applied in that branch;
only non-existing raw paths are resolved relative to the build directory. -/
theorem claim7_existing_path_kept_raw (fs : FS) (bd : List Char)
    (cache : List (List Char × Option (List Char))) (p : List Char)
    (hmiss : lookupA cache p = none) (hfile : fs.isfile p = true) :
    (resolveWithCache fs bd cache p).1 = some p := by
  rw [resolveWithCache, hmiss]
  simp [resolveDirect, hfile]

/-- C7 witness: with the identity filesystem model and an empty cache, an
existing path resolves to itself. -/
theorem claim7_witness :
    lookupA [] ['f'] = none ∧ allFS.isfile ['f'] = true ∧
    (resolveWithCache allFS [] [] ['f']).1 = some ['f'] :=
  ⟨rfl, rfl, claim7_existing_path_kept_raw allFS [] [] ['f'] rfl rfl⟩

/-- C8 (counterexample): the parser emits records with *negative* offsets:
Python's `int()` accepts a sign, so the line `r:::p:::-5:::1:::x` parses
successfully and yields an Edit Record with offset `-5 < 0`, refuting the
claim that every emitted record has a non-negative offset and length. -/
theorem claim8_counterexample :
    parseEditsFromStdin allFS [] ["r:::p:::-5:::1:::x".toList]
        = [(['p'], ⟨[114], -5, 1, [120]⟩)] ∧
    ((⟨[114], -5, 1, [120]⟩ : Edit).offset < 0) := by
  refine ⟨by decide, by decide⟩

/-- C8 (amended): the Edit Stream Parser never aborts on a malformed line:
a line that does not split into the five expected fields, or whose offset or
length field is not a parseable integer, contributes nothing — removing it
from the stream leaves the emitted records unchanged, and parsing continues
with the surrounding lines.  (Emitted offsets and lengths are whatever the
integer parser accepts, including negative values.) -/
theorem claim8_malformed_line_skipped (fs : FS) (bd : List Char)
    (A B : List (List Char)) (bad : List Char) (h : malformedLine bad) :
    parseEditsFromStdin fs bd (A ++ bad :: B)
      = parseEditsFromStdin fs bd (A ++ B) := by
  rw [parseEdits_NC, parseEdits_NC, List.foldl_append, List.foldl_append,
    List.foldl_cons, parseLineStepNC_malformed h]

/-- C8 witness: dropping a concrete malformed line from a one-line stream
leaves the (empty) output unchanged. -/
theorem claim8_witness :
    malformedLine "x".toList ∧
    parseEditsFromStdin allFS [] ([] ++ "x".toList :: [])
      = parseEditsFromStdin allFS [] ([] ++ []) :=
  ⟨by decide, claim8_malformed_line_skipped allFS [] [] [] "x".toList
    (by decide)⟩

/-- C9: the Batch Driver's result equals the negation of the total error
count summed over all files; in particular it is `0` whenever no file
reported errors (duplicates are skipped without error) and `-k` when `k`
conflicting edits were discarded in total. -/
theorem claim9_exit_status (fc : String → List Nat)
    (batches : List (String × List Edit)) :
    applyEdits fc batches =
      -(((batches.map
          fun b => (applyEditsToSingleFile (fc b.1) b.2).2.2).sum : Int)) := by
  unfold applyEdits
  simpa using applyEditsGo_spec fc batches 0 0

/-- C10 (counterexample): a record whose offset equals the buffer length but
whose replacement is empty does not merely append (i.e. leave the buffer
unchanged): the deletion-extension heuristic fires at the clamped end and
deletes the dangling comma, so the final buffer is not
`buffer ++ replacement`. -/
theorem claim10_counterexample :
    (applyEditsToSingleFile (strBytes "a,") [⟨strBytes "r", 2, 0, []⟩]).1
      ≠ strBytes "a," ++ ([] : List Nat) := by decide

/-- C10 (amended): for every record with non-negative length, a *non-empty*
replacement and an offset at or past the end of the buffer, the Edit
Applier's splice is clamped to the buffer end: the replacement bytes are
appended, the record is counted in `edits_applied`, and no error is
reported. -/
theorem claim10_append_at_end (buf : List Nat) (e : Edit)
    (hr : e.replacement ≠ []) (hl : 0 ≤ e.length)
    (ho : (buf.length : Int) ≤ e.offset) :
    applyEditsToSingleFile buf [e] = (buf ++ e.replacement, 1, 0) := by
  rw [applyFile_single]
  have h0 : 0 ≤ e.offset := by omega
  rw [applyContents_nonempty buf e hr h0 hl]
  have h1 : buf.take e.offset.toNat = buf := List.take_of_length_le (by omega)
  have h2 : buf.drop (e.offset.toNat + e.length.toNat) = [] :=
    List.drop_eq_nil_of_le (by omega)
  rw [h1, h2, List.append_nil]

/-- C10 witness: a concrete out-of-bounds record appends its replacement. -/
theorem claim10_witness :
    (strBytes "b" ≠ [] ∧ (0 : Int) ≤ 2 ∧
        ((strBytes "a").length : Int) ≤ 5) ∧
    applyEditsToSingleFile (strBytes "a") [⟨strBytes "r", 5, 2, strBytes "b"⟩]
      = (strBytes "a" ++ strBytes "b", 1, 0) :=
  ⟨⟨by decide, by decide, by decide⟩,
    claim10_append_at_end (strBytes "a") ⟨strBytes "r", 5, 2, strBytes "b"⟩
      (by decide) (by decide) (by decide)⟩
